import Mathlib

/-!
Verification of the agentic-compaction extension (`src/index.ts`).

The file shallowly embeds the pure core of the extension:

* JavaScript string primitives are modelled over `List Char`
  (`jsTrim`, `jsToLower`, `jsStartsWith`, `jsEndsWith`, `jsIncludes`,
  `basename`, `strTake`, `joinNewline`);
* the conversation analyzer (`extractUserCompactionNote`,
  `isLikelyTempArtifactPath`, `detectFileOpsFromConversation`) is
  translated function by function from the source;
* `mapWithConcurrency`'s worker pool is embedded as a small-step state
  machine (`runnerStep`) driven by an arbitrary scheduler, so that every
  interleaving of worker progress (every completion order) is covered;
* the agent loop (`runAgentLoop`) is embedded as a step function
  (`loopStep`) over an explicit phase type, with the completion provider
  and the abort signal supplied as inputs and the sandboxed bash
  interpreter as an oracle (`String → BashOutcome`);
* model selection (`selectCompactionModel`) is translated directly, with
  the registry as an explicit structure.

Theorems about these definitions settle the specification claims.
-/

namespace Compaction

/-! ## JavaScript string primitives, modelled over `List Char` -/

/-- Characters trimmed from both ends by `String.prototype.trim`. -/
def jsTrimChars (cs : List Char) : List Char :=
  ((cs.dropWhile Char.isWhitespace).reverse.dropWhile Char.isWhitespace).reverse

/-- Model of `String.prototype.trim`. -/
def jsTrim (s : String) : String :=
  String.mk (jsTrimChars s.toList)

/-- Model of `String.prototype.toLowerCase` (ASCII case folding). -/
def jsToLower (s : String) : String :=
  String.mk (s.toList.map Char.toLower)

/-- `charsLeadsWith p s` holds when the list `s` begins with `p`. -/
def charsLeadsWith : List Char → List Char → Bool
  | [], _ => true
  | _ :: _, [] => false
  | p :: ps, c :: cs => p == c && charsLeadsWith ps cs

/-- Model of `String.prototype.startsWith`. -/
def jsStartsWith (s pre : String) : Bool :=
  charsLeadsWith pre.toList s.toList

/-- Model of `String.prototype.endsWith`. -/
def jsEndsWith (s suf : String) : Bool :=
  charsLeadsWith suf.toList.reverse s.toList.reverse

/-- `charsIncl sub s` holds when `sub` occurs contiguously inside `s`. -/
def charsIncl (sub : List Char) : List Char → Bool
  | [] => sub.isEmpty
  | c :: cs => charsLeadsWith sub (c :: cs) || charsIncl sub cs

/-- Model of `String.prototype.includes`. -/
def jsIncludes (s sub : String) : Bool :=
  charsIncl sub.toList s.toList

/-- Model of node's `path.posix.basename` (no extension argument):
trailing slashes are dropped, then the segment after the last remaining
slash is returned. -/
def basenameChars (cs : List Char) : List Char :=
  (((cs.reverse).dropWhile (· == '/')).takeWhile (· != '/')).reverse

/-- Model of `path.basename` from `node:path` on a posix platform. -/
def basename (s : String) : String :=
  String.mk (basenameChars s.toList)

/-- Model of `String.prototype.slice(0, n)`. -/
def strTake (s : String) (n : Nat) : String :=
  String.mk (s.toList.take n)

/-- Model of `Array.prototype.join("\n")` on an array of strings. -/
def joinNewline : List String → String
  | [] => ""
  | [s] => s
  | s :: rest => s ++ "\n" ++ joinNewline rest

/-- Model of `Math.floor` on a JavaScript number, taken as a rational. -/
def jsFloor (q : ℚ) : Int :=
  Int.fdiv q.num q.den

/-! ## Conversation data model (`LlmMessage`, `LlmContentBlock`)

`LlmContentBlock.argPath` models the call's `"path"` argument when it is
present and string-valued (`typeof block.arguments.path === "string"`);
every other shape of the `path` argument is `none`.  The `isError` field
of `LlmMessage` is `true` exactly when the wire value is truthy. -/

structure LlmContentBlock where
  type : Option String
  text : Option String
  id : Option String
  name : Option String
  argPath : Option String
deriving DecidableEq

structure LlmMessage where
  role : Option String
  content : List LlmContentBlock
  isError : Bool
  toolCallId : Option String
deriving DecidableEq

/-- The text contributed by one block inside
`extractTextFromLlmMessageContent`: non-text blocks and text blocks
without a string `text` field contribute the empty string. -/
def blockText (b : LlmContentBlock) : String :=
  if b.type = some "text" then b.text.getD "" else ""

/-- Embeds `extractTextFromLlmMessageContent`. -/
def extractTextFromLlmMessageContent (content : List LlmContentBlock) : String :=
  jsTrim (joinNewline ((content.map blockText).filter (fun t => t != "")))

/-! ## User-note extraction (`extractUserCompactionNote`) -/

/-- A JavaScript `\w` word character (`[A-Za-z0-9_]`). -/
def isWordChar (c : Char) : Bool :=
  c.isAlphanum || c == '_'

/-- Embeds the regular-expression test
`/^\/compact\b[ \t]*(.*)$/is` applied to an already-trimmed string:
the result is the capture group (the remainder after the optional
spaces/tabs) when the string matches, `none` otherwise.  The `\b`
requires the character following `"/compact"`, if any, to not be a word
character; the `i` flag makes the prefix case-insensitive; the `s` flag
lets the capture span line breaks. -/
def compactMatch (s : String) : Option String :=
  let cs := s.toList
  if (cs.take 8).map Char.toLower = "/compact".toList then
    match cs.drop 8 with
    | [] => some ""
    | c :: rest =>
      if isWordChar c then none
      else some (String.mk ((c :: rest).dropWhile (fun ch => ch == ' ' || ch == '\t')))
  else none

/-- The scan loop of `extractUserCompactionNote`, over an
already-reversed list of user messages, parameterized by the command
matcher. -/
def compactNoteScanWith (matcher : String → Option String) : List LlmMessage → Option String
  | [] => none
  | m :: rest =>
    let text := extractTextFromLlmMessageContent m.content
    if text = "" then compactNoteScanWith matcher rest
    else
      match matcher (jsTrim text) with
      | none => compactNoteScanWith matcher rest
      | some captured =>
        let note := jsTrim captured
        if note != "" then some note else none

/-- Embeds `extractUserCompactionNote`. -/
def extractUserCompactionNote (llmMessages : List LlmMessage) : Option String :=
  compactNoteScanWith compactMatch
    ((llmMessages.filter (fun m => m.role == some "user")).reverse)

/-! ## Temp-artifact classification (`isLikelyTempArtifactPath`) -/

/-- Embeds `isLikelyTempArtifactPath`. -/
def isLikelyTempArtifactPath (filePath : String) : Bool :=
  let normalized := jsTrim filePath
  if normalized = "" then false
  else
    let base := jsToLower (basename normalized)
    if jsStartsWith base "__tmp" then true
    else if jsEndsWith base ".tmp" then true
    else if jsIncludes base ".tmp." then true
    else false

/-! ## File-operation detection (`detectFileOpsFromConversation`) -/

structure ToolCallInfo where
  name : String
  /-- The call's `"path"` argument when present and string-valued. -/
  path : Option String
deriving DecidableEq

structure DetectedFileOps where
  modifiedFiles : List String
  deletedFiles : List String
deriving DecidableEq

/-- One `content` block's contribution to the tool-call index: indexed
exactly when the block is a `toolCall` with string `id` and `name`. -/
def blockToToolCallEntry (b : LlmContentBlock) : Option (String × ToolCallInfo) :=
  if b.type = some "toolCall" then
    match b.id, b.name with
    | some i, some n => some (i, ⟨n, b.argPath⟩)
    | _, _ => none
  else none

/-- Embeds `extractToolCallsFromMessages`.  The `Map` insertions are
kept as an ordered list of entries; lookups take the last binding for a
key (`Map.set` overwrites earlier occurrences of the same id). -/
def extractToolCallsFromMessages (llmMessages : List LlmMessage) : List (String × ToolCallInfo) :=
  llmMessages.foldl
    (fun acc m =>
      if m.role = some "assistant" then acc ++ m.content.filterMap blockToToolCallEntry
      else acc)
    []

/-- Lookup in the tool-call index; the last binding for an id wins,
matching `Map.set` / `Map.get`. -/
def lookupToolCall (entries : List (String × ToolCallInfo)) (tid : String) : Option ToolCallInfo :=
  (entries.reverse.find? (fun e => e.fst == tid)).map Prod.snd

/-- Embeds `extractModifiedPathFromToolResult`. -/
def extractModifiedPathFromToolResult
    (byId : List (String × ToolCallInfo)) (m : LlmMessage) : Option String :=
  match m.toolCallId with
  | none => none
  | some tid =>
    match lookupToolCall byId tid with
    | none => none
    | some tc =>
      if tc.name = "write" ∨ tc.name = "edit" then tc.path else none

/-- Embeds `uniqStrings`: trim every value, drop the blanks, and
deduplicate keeping the first occurrence (JavaScript `Set` insertion
order). -/
def dedupFirstAux (seen : List String) : List String → List String
  | [] => []
  | x :: xs =>
    if seen.contains x then dedupFirstAux seen xs
    else x :: dedupFirstAux (x :: seen) xs

def dedupFirst (l : List String) : List String :=
  dedupFirstAux [] l

def uniqStrings (values : List String) : List String :=
  dedupFirst ((values.map jsTrim).filter (fun v => v != ""))

/-- One iteration of the collection loop of
`detectFileOpsFromConversation`: a path is pushed when the message is a
non-error tool result whose call resolves to a `write`/`edit` with a
truthy (non-empty) string path. -/
def collectStep (byId : List (String × ToolCallInfo)) (acc : List String) (m : LlmMessage) : List String :=
  if m.role = some "toolResult" ∧ m.isError = false then
    match extractModifiedPathFromToolResult byId m with
    | some p => if p != "" then acc ++ [p] else acc
    | none => acc
  else acc

/-- The collection loop of `detectFileOpsFromConversation`: raw modified
paths pushed in encounter order. -/
def collectModifiedRaw (byId : List (String × ToolCallInfo)) (llmMessages : List LlmMessage) : List String :=
  llmMessages.foldl (collectStep byId) []

/-- Embeds `detectFileOpsFromConversation`. -/
def detectFileOpsFromConversation (llmMessages : List LlmMessage) : DetectedFileOps :=
  let byId := extractToolCallsFromMessages llmMessages
  let modifiedFiles := collectModifiedRaw byId llmMessages
  let deletedFiles : List String := []
  let deleted := uniqStrings deletedFiles
  let modified := (uniqStrings modifiedFiles).filter (fun p => !(deleted.contains p))
  ⟨modified, deleted⟩

/-! ## Bounded-concurrency runner (`mapWithConcurrency`)

The worker pool is embedded as a state machine.  A state holds the
shared index cursor, the result slots (as a function from slot index to
an optional result, modelling the pre-allocated array), the phase of
every worker, and a count of mapper invocations.  A schedule — an
arbitrary list of worker indices — decides the interleaving: each
scheduled worker performs its next atomic step (the claim of an index
together with the mapper invocation is one synchronous block in the
source; the write of the awaited result is a separate step).  Quantifying
over all schedules covers every completion order. -/

inductive WorkerPhase where
  | idle
  | running (i : Nat)
  | finished
deriving DecidableEq

structure RunnerState (U : Type) where
  nextIndex : Nat
  results : Nat → Option U
  workers : Nat → WorkerPhase
  invocations : Nat

/-- `Math.max(1, Math.floor(concurrency))`. -/
def effectiveConcurrency (c : ℚ) : Nat :=
  (max 1 (jsFloor c)).toNat

/-- `Math.min(effectiveConcurrency, items.length)`: the number of
workers spawned. -/
def workerCount {T : Type} (items : List T) (c : ℚ) : Nat :=
  min (effectiveConcurrency c) items.length

def runnerInit {T U : Type} (_items : List T) : RunnerState U :=
  ⟨0, fun _ => none, fun _ => .idle, 0⟩

/-- One scheduled step of worker `w`. -/
def runnerStep {T U : Type} (items : List T) (f : T → Nat → U) (c : ℚ)
    (s : RunnerState U) (w : Nat) : RunnerState U :=
  if w < workerCount items c then
    match s.workers w with
    | .idle =>
      match items[s.nextIndex]? with
      | some _ =>
        { nextIndex := s.nextIndex + 1
          results := s.results
          workers := fun w' => if w' = w then .running s.nextIndex else s.workers w'
          invocations := s.invocations + 1 }
      | none =>
        { s with workers := fun w' => if w' = w then .finished else s.workers w' }
    | .running i =>
      { s with
        results := fun j => if j = i then (items[i]?).map (fun a => f a i) else s.results j
        workers := fun w' => if w' = w then .idle else s.workers w' }
    | .finished => s
  else s

def runnerRun {T U : Type} (items : List T) (f : T → Nat → U) (c : ℚ)
    (sched : List Nat) : RunnerState U :=
  sched.foldl (runnerStep items f c) (runnerInit items)

/-- `Promise.all` of the workers has settled: every worker has run out
of indices to claim. -/
def runnerDone {T U : Type} (items : List T) (c : ℚ) (s : RunnerState U) : Bool :=
  (List.range (workerCount items c)).all (fun w => decide (s.workers w = .finished))

/-- The strictly sequential map the spec compares against:
`result[i] = mapper(items[i], i)`. -/
def seqMap {T U : Type} (f : T → Nat → U) : Nat → List T → List U
  | _, [] => []
  | k, a :: as => f a k :: seqMap f (k + 1) as

/-- Embeds `mapWithConcurrency`, relative to a schedule.  The empty
input returns early; otherwise the worker pool runs to completion under
the given schedule (`none` when the schedule stops short, i.e. the
`await Promise.all` has not settled). -/
def mapWithConcurrency {T U : Type} (items : List T) (f : T → Nat → U) (c : ℚ)
    (sched : List Nat) : Option (List U) :=
  if items.isEmpty then some []
  else
    let s := runnerRun items f c sched
    if runnerDone items c s then some ((List.range items.length).filterMap s.results)
    else none

/-! ## Tool execution (`executeSingleToolCall`, `executeToolCalls`)

The `just-bash` interpreter is external; its behaviour on one command is
an oracle value of type `BashOutcome`: either a settled execution with
stdout, stderr and an exit code, or a raised error with a message. -/

inductive BashOutcome where
  | ok (stdout : String) (stderr : String) (exitCode : Int)
  | failure (message : String)
deriving DecidableEq

structure ToolCallExecResult where
  result : String
  isError : Bool
deriving DecidableEq

structure ToolCallContent where
  id : String
  name : String
  command : String
deriving DecidableEq

/-- Embeds `executeSingleToolCall`, as a function of the interpreter's
outcome for the call's command.  The `catch` branch is the `failure`
case: every raised error is converted into an error-flagged result. -/
def executeSingleToolCall (r : BashOutcome) (toolResultMaxChars : Nat) : ToolCallExecResult :=
  match r with
  | .ok stdout stderr exitCode =>
    let base := stdout ++ (if stderr != "" then "\nstderr: " ++ stderr else "")
    let withExit :=
      if exitCode != 0 then base ++ "\nexit code: " ++ toString exitCode else base
    ⟨strTake withExit toolResultMaxChars, exitCode != 0⟩
  | .failure message => ⟨"Error: " ++ message, true⟩

/-- Embeds `executeToolCalls`: the calls are mapped through
`mapWithConcurrency` with the configured tool concurrency, each one
executed by `executeSingleToolCall` on the interpreter's outcome for its
command (the notification emitted before each dispatch does not affect
the results). -/
def executeToolCallsModel (bashExec : String → BashOutcome) (toolResultMaxChars : Nat)
    (toolCallConcurrency : ℚ) (toolCalls : List ToolCallContent)
    (sched : List Nat) : Option (List ToolCallExecResult) :=
  mapWithConcurrency toolCalls
    (fun tc _ => executeSingleToolCall (bashExec tc.command) toolResultMaxChars)
    toolCallConcurrency sched

/-! ## Agent loop (`runAgentLoop`) -/

inductive ContentBlock where
  | text (s : String)
  | toolCall (id : String) (name : String) (command : String)
  | other
deriving DecidableEq

/-- `response.content.filter(isToolCallContent)`. -/
def toolCallsOf (content : List ContentBlock) : List ToolCallContent :=
  content.filterMap fun b =>
    match b with
    | .toolCall i n c => some ⟨i, n, c⟩
    | _ => none

/-- The summary extracted from a text-only response:
`content.filter(isTextContent).map(c => c.text).join("\n").trim()`. -/
def summaryOf (content : List ContentBlock) : String :=
  jsTrim (joinNewline (content.filterMap fun b =>
    match b with
    | .text s => some s
    | _ => none))

/-- A transcript turn (`messages` / `trajectory` entry). -/
inductive TMsg where
  | assistant (content : List ContentBlock)
  | toolResult (toolCallId : String) (toolName : String) (text : String) (isError : Bool)
deriving DecidableEq

inductive Phase where
  | requesting
  | executing (content : List ContentBlock)
  | done (summary : String)
  | aborted
deriving DecidableEq

structure LoopState where
  phase : Phase
  messages : List TMsg
  trajectory : List TMsg
  requests : Nat
deriving DecidableEq

/-- An input consumed by one loop step: the value of the cancellation
signal at that instant, plus the completion response (in `requesting`)
or the scheduler interleaving of the tool batch (in `executing`). -/
inductive LoopInput where
  | req (abortedNow : Bool) (responseContent : List ContentBlock)
  | exec (abortedNow : Bool) (sched : List Nat)
deriving DecidableEq

def loopInit : LoopState :=
  ⟨.requesting, [], [], 0⟩

/-- The tool-result turns appended after a settled batch, one per call,
in the original call order (`for i in 0..toolCalls.length-1`). -/
def toolResultTurns (toolCalls : List ToolCallContent)
    (results : List ToolCallExecResult) : List TMsg :=
  (toolCalls.zip results).map fun p =>
    .toolResult p.fst.id p.fst.name p.snd.result p.snd.isError

/-- Embeds one iteration of `runAgentLoop`'s `while (true)` body, split
at the `await` points.

In `requesting`, the signal is polled first; when it is set the loop
returns `undefined` (phase `aborted`) without calling `complete`.
Otherwise exactly one completion request is issued (`requests`
increments); a response without tool calls appends the final assistant
turn to the trajectory and terminates with the summary, and a response
with tool calls appends the assistant turn to both transcripts and moves
to `executing`.

In `executing`, the batch runs through `executeToolCalls` under the
step's schedule; the signal value at this instant is ignored — the
source never reads `signal` between the dispatch and the next loop
head.  When the batch settles, one tool-result turn per call is appended
in call order and the loop returns to `requesting`. -/
def loopStep (bashExec : String → BashOutcome) (toolResultMaxChars : Nat)
    (toolCallConcurrency : ℚ) (st : LoopState) (inp : LoopInput) : LoopState :=
  match st.phase, inp with
  | .requesting, .req abortedNow responseContent =>
    if abortedNow then { st with phase := .aborted }
    else
      let toolCalls := toolCallsOf responseContent
      if toolCalls.isEmpty then
        { st with
          phase := .done (summaryOf responseContent)
          trajectory := st.trajectory ++ [.assistant responseContent]
          requests := st.requests + 1 }
      else
        { st with
          phase := .executing responseContent
          messages := st.messages ++ [.assistant responseContent]
          trajectory := st.trajectory ++ [.assistant responseContent]
          requests := st.requests + 1 }
  | .executing responseContent, .exec _ sched =>
    let toolCalls := toolCallsOf responseContent
    match executeToolCallsModel bashExec toolResultMaxChars toolCallConcurrency toolCalls sched with
    | some results =>
      let turns := toolResultTurns toolCalls results
      { st with
        phase := .requesting
        messages := st.messages ++ turns
        trajectory := st.trajectory ++ turns }
    | none => st
  | _, _ => st

/-! ## Model selection (`selectCompactionModel`) -/

inductive ThinkingLevel where
  | off
  | minimal
  | low
  | medium
  | high
  | xhigh
deriving DecidableEq

structure RegisteredModel where
  provider : String
  id : String
deriving DecidableEq

/-- The external model registry (`ctx.modelRegistry`): the list of known
models and the credential lookup. -/
structure ModelRegistry where
  getAll : List RegisteredModel
  getApiKey : RegisteredModel → Option String

structure CompactionModelConfig where
  provider : String
  id : String
  thinkingLevel : Option ThinkingLevel
deriving DecidableEq

structure ModelSelection where
  model : RegisteredModel
  apiKey : String
  thinkingLevel : ThinkingLevel
deriving DecidableEq

/-- Embeds `selectCompactionModel`: the `for` loop over the configured
candidates, then the session-model fallback. -/
def selectCompactionModel (compactionModels : List CompactionModelConfig)
    (globalThinkingLevel : ThinkingLevel) (registry : ModelRegistry)
    (sessionModel : Option RegisteredModel) : Option ModelSelection :=
  match compactionModels with
  | [] =>
    match sessionModel with
    | some sm =>
      match registry.getApiKey sm with
      | some key => some ⟨sm, key, globalThinkingLevel⟩
      | none => none
    | none => none
  | cfg :: rest =>
    match registry.getAll.find? (fun m => m.provider == cfg.provider && m.id == cfg.id) with
    | none => selectCompactionModel rest globalThinkingLevel registry sessionModel
    | some registryModel =>
      match registry.getApiKey registryModel with
      | none => selectCompactionModel rest globalThinkingLevel registry sessionModel
      | some key =>
        some ⟨registryModel, key, cfg.thinkingLevel.getD globalThinkingLevel⟩

/-! ## Concrete conversations used as test inputs -/

/-- A user message holding a single text block. -/
def mkUserText (t : String) : LlmMessage :=
  ⟨some "user", [⟨some "text", some t, none, none, none⟩], false, none⟩

/-- An assistant message holding a single `write` tool call. -/
def writeCallMsg (tid path : String) : LlmMessage :=
  ⟨some "assistant", [⟨some "toolCall", none, some tid, some "write", some path⟩], false, none⟩

/-- A tool-result message linked to `tid`. -/
def toolResultMsg (tid : String) (isError : Bool) : LlmMessage :=
  ⟨some "toolResult", [], isError, some tid⟩

/-! ## C8: tool execution converts failures and truncates output -/

/-- C8 counterexample: the claim asserts that the returned output text is
always truncated to `toolResultMaxChars`, but the `catch` branch of
`executeSingleToolCall` builds `"Error: " + message` after the
truncation point and returns it untruncated: with `toolResultMaxChars
= 5` a raised error with message `"aaaaaa"` yields a 13-character
result. -/
theorem executeSingleToolCall_catch_not_truncated :
    (executeSingleToolCall (.failure "aaaaaa") 5).result = "Error: aaaaaa"
    ∧ (executeSingleToolCall (.failure "aaaaaa") 5).isError = true
    ∧ 5 < (executeSingleToolCall (.failure "aaaaaa") 5).result.length := by
  decide

/-- C8 (amended): `executeSingleToolCall` never raises (it is a total
function of the interpreter outcome); on a settled execution the output
is stdout, a labeled stderr segment when stderr is non-empty, and — for
a non-zero exit status — an exit-code marker, the whole truncated to
`toolResultMaxChars`, with `isError` set exactly on non-zero exit; on a
raised error the result is an error-flagged, readable message, not
truncated. -/
theorem executeSingleToolCall_spec :
    ∀ (stdout stderr : String) (exitCode : Int) (message : String) (maxChars : Nat),
      executeSingleToolCall (.ok stdout stderr exitCode) maxChars
        = ⟨strTake
             ((stdout ++ (if stderr != "" then "\nstderr: " ++ stderr else ""))
               ++ (if exitCode != 0 then "\nexit code: " ++ toString exitCode else ""))
             maxChars,
           exitCode != 0⟩
      ∧ (executeSingleToolCall (.ok stdout stderr exitCode) maxChars).result.length ≤ maxChars
      ∧ executeSingleToolCall (.failure message) maxChars = ⟨"Error: " ++ message, true⟩ := by
  intro stdout stderr exitCode message maxChars
  have hlen : ∀ (s : String) (n : Nat), (strTake s n).length ≤ n := fun s n =>
    List.length_take_le n s.toList
  have h1 : executeSingleToolCall (.ok stdout stderr exitCode) maxChars
      = ⟨strTake
           ((stdout ++ (if stderr != "" then "\nstderr: " ++ stderr else ""))
             ++ (if exitCode != 0 then "\nexit code: " ++ toString exitCode else ""))
           maxChars,
         exitCode != 0⟩ := by
    cases h : exitCode != 0 <;> simp [executeSingleToolCall, h, String.append_assoc]
  exact ⟨h1, by rw [h1]; exact hlen _ _, rfl⟩

/-! ## C9: temp-artifact path classification -/

/-- C9: a path is classified as a temp artifact exactly when it trims to
a non-empty string whose case-folded basename starts with `"__tmp"`,
ends with `".tmp"`, or contains `".tmp."`; an empty or whitespace-only
path is never temp-like; concrete cases from the spec, including
case-insensitivity. -/
theorem isLikelyTempArtifactPath_spec :
    (∀ p : String,
      isLikelyTempArtifactPath p
        = (decide (jsTrim p ≠ "")
            && (jsStartsWith (jsToLower (basename (jsTrim p))) "__tmp"
                || jsEndsWith (jsToLower (basename (jsTrim p))) ".tmp"
                || jsIncludes (jsToLower (basename (jsTrim p))) ".tmp.")))
    ∧ isLikelyTempArtifactPath "" = false
    ∧ isLikelyTempArtifactPath "   " = false
    ∧ isLikelyTempArtifactPath "file.tmp" = true
    ∧ isLikelyTempArtifactPath "__tmp_x" = true
    ∧ isLikelyTempArtifactPath "a.tmp.bak" = true
    ∧ isLikelyTempArtifactPath "FILE.TMP" = true
    ∧ isLikelyTempArtifactPath "A.TMP.BAK" = true
    ∧ isLikelyTempArtifactPath "__TMP_file.js" = true
    ∧ isLikelyTempArtifactPath "/path/to/data.tmp" = true
    ∧ isLikelyTempArtifactPath "src/index.ts" = false := by
  refine ⟨fun p => ?_, by decide, by decide, by decide, by decide, by decide,
    by decide, by decide, by decide, by decide, by decide⟩
  by_cases h : jsTrim p = ""
  · simp [isLikelyTempArtifactPath, h]
  · simp only [isLikelyTempArtifactPath, h, if_false, decide_not]
    cases h1 : jsStartsWith (jsToLower (basename (jsTrim p))) "__tmp" <;>
      cases h2 : jsEndsWith (jsToLower (basename (jsTrim p))) ".tmp" <;>
        cases h3 : jsIncludes (jsToLower (basename (jsTrim p))) ".tmp." <;>
          simp [h, h1, h2, h3]

/-! ## C6: ordered fallback model selection -/

/-- The outcome of one candidate, as the spec words it: a matching
registered model looked up by provider+id, and — when the lookup
succeeds — its credential; the candidate succeeds when both are present,
carrying its thinking-level override or else the global default. -/
def tryCandidate (registry : ModelRegistry) (globalThinkingLevel : ThinkingLevel)
    (cfg : CompactionModelConfig) : Option ModelSelection :=
  match registry.getAll.find? (fun m => m.provider == cfg.provider && m.id == cfg.id) with
  | none => none
  | some registryModel =>
    (registry.getApiKey registryModel).map
      (fun key => ⟨registryModel, key, cfg.thinkingLevel.getD globalThinkingLevel⟩)

/-- The session-default attempt: succeeds only when the credential is
present, with the global default thinking level. -/
def sessionFallback (registry : ModelRegistry) (globalThinkingLevel : ThinkingLevel) :
    Option RegisteredModel → Option ModelSelection
  | none => none
  | some sm => (registry.getApiKey sm).map (fun key => ⟨sm, key, globalThinkingLevel⟩)

/-- C6: `selectCompactionModel` returns the first listed candidate with
both a registered match and a non-absent credential (`List.findSome?`
takes the candidates in listed order), falling back to the
session-default model, and returns `none` otherwise — in particular for
an empty candidate list with no session default. -/
theorem selectCompactionModel_spec :
    (∀ (compactionModels : List CompactionModelConfig) (globalThinkingLevel : ThinkingLevel)
       (registry : ModelRegistry) (sessionModel : Option RegisteredModel),
      selectCompactionModel compactionModels globalThinkingLevel registry sessionModel
        = Option.orElse
            (compactionModels.findSome? (tryCandidate registry globalThinkingLevel))
            (fun _ => sessionFallback registry globalThinkingLevel sessionModel))
    ∧ (∀ (globalThinkingLevel : ThinkingLevel) (registry : ModelRegistry),
        selectCompactionModel [] globalThinkingLevel registry none = none) := by
  constructor
  · intro compactionModels globalThinkingLevel registry sessionModel
    induction compactionModels with
    | nil =>
      cases sessionModel with
      | none => rfl
      | some sm =>
        show _ = Option.orElse none _
        cases h : registry.getApiKey sm <;>
          simp [selectCompactionModel, sessionFallback, h, Option.orElse]
    | cons cfg rest ih =>
      cases hfind : registry.getAll.find?
          (fun m => m.provider == cfg.provider && m.id == cfg.id) with
      | none =>
        simp [selectCompactionModel, hfind, List.findSome?_cons, tryCandidate, ih]
      | some registryModel =>
        cases hkey : registry.getApiKey registryModel with
        | none =>
          simp [selectCompactionModel, hfind, hkey, List.findSome?_cons, tryCandidate, ih]
        | some key =>
          simp [selectCompactionModel, hfind, hkey, List.findSome?_cons, tryCandidate,
            Option.orElse]
  · intro globalThinkingLevel registry
    rfl

/-! ## C7: user compaction-note extraction -/

/-- The command pattern exactly as the claim words it: the
case-insensitive prefix `"/compact"` followed by optional whitespace and
a free-form remainder — with no word-boundary requirement after the
prefix. -/
def claimCompactMatch (s : String) : Option String :=
  let cs := s.toList
  if (cs.take 8).map Char.toLower = "/compact".toList then
    some (String.mk ((cs.drop 8).dropWhile Char.isWhitespace))
  else none

/-- The extraction as the claim words it: the same most-recent-first
scan, with the boundary-free pattern `claimCompactMatch`. -/
def claimUserCompactionNote (llmMessages : List LlmMessage) : Option String :=
  compactNoteScanWith claimCompactMatch
    ((llmMessages.filter (fun m => m.role == some "user")).reverse)

/-- C7 counterexample: the claim's pattern — `"/compact"` followed by
optional whitespace and a remainder — accepts `"/compactxyz"` with note
`"xyz"`, but the source's regular expression requires a word boundary
after the prefix (`\b`), so the code extracts no note from that
message. -/
theorem extractUserCompactionNote_boundary_cex :
    extractUserCompactionNote [mkUserText "/compactxyz"] = none
    ∧ claimUserCompactionNote [mkUserText "/compactxyz"] = some "xyz" := by
  decide

/-- The extraction as amended: scan user-authored messages from most
recent to oldest, stop at the first whose trimmed text matches the
case-insensitive prefix `"/compact"` followed by a word boundary,
optional spaces/tabs and a free-form remainder; the note is the trimmed
remainder when non-empty, and `none` otherwise — decided entirely by
that most recent match. -/
def compactionNoteSpec (llmMessages : List LlmMessage) : Option String :=
  match ((llmMessages.filter (fun m => m.role == some "user")).reverse).find?
      (fun m => (compactMatch (jsTrim (extractTextFromLlmMessageContent m.content))).isSome) with
  | none => none
  | some m =>
    match compactMatch (jsTrim (extractTextFromLlmMessageContent m.content)) with
    | some captured => if jsTrim captured != "" then some (jsTrim captured) else none
    | none => none

lemma compactMatch_empty : compactMatch "" = none := by decide

lemma jsTrim_empty : jsTrim "" = "" := by decide

lemma compactNoteScanWith_eq_find (l : List LlmMessage) :
    compactNoteScanWith compactMatch l
      = match l.find?
          (fun m => (compactMatch (jsTrim (extractTextFromLlmMessageContent m.content))).isSome) with
        | none => none
        | some m =>
          match compactMatch (jsTrim (extractTextFromLlmMessageContent m.content)) with
          | some captured => if jsTrim captured != "" then some (jsTrim captured) else none
          | none => none := by
  induction l with
  | nil => rfl
  | cons m rest ih =>
    by_cases ht : extractTextFromLlmMessageContent m.content = ""
    · have hmatch : compactMatch (jsTrim (extractTextFromLlmMessageContent m.content)) = none := by
        rw [ht, jsTrim_empty, compactMatch_empty]
      have hfind : (m :: rest).find?
          (fun m => (compactMatch (jsTrim (extractTextFromLlmMessageContent m.content))).isSome)
          = rest.find?
            (fun m => (compactMatch (jsTrim (extractTextFromLlmMessageContent m.content))).isSome) := by
        rw [List.find?_cons_of_neg]
        simp [hmatch]
      rw [hfind] at *
      simpa [compactNoteScanWith, ht] using ih
    · cases hm : compactMatch (jsTrim (extractTextFromLlmMessageContent m.content)) with
      | none =>
        have hfind : (m :: rest).find?
            (fun m => (compactMatch (jsTrim (extractTextFromLlmMessageContent m.content))).isSome)
            = rest.find?
              (fun m => (compactMatch (jsTrim (extractTextFromLlmMessageContent m.content))).isSome) := by
          rw [List.find?_cons_of_neg]
          simp [hm]
        rw [hfind]
        simpa [compactNoteScanWith, ht, hm] using ih
      | some captured =>
        have hfind : (m :: rest).find?
            (fun m => (compactMatch (jsTrim (extractTextFromLlmMessageContent m.content))).isSome)
            = some m := by
          rw [List.find?_cons_of_pos]
          simp [hm]
        rw [hfind]
        simp [compactNoteScanWith, ht, hm]

/-- C7 (amended): the extraction scans user-authored messages from most
recent to oldest and is decided entirely by the first whose trimmed text
matches `"/compact"` case-insensitively with a word boundary after the
prefix: a non-empty trimmed remainder is the note; an empty one yields
`none` immediately, with no fallback to an earlier message containing a
non-empty note; no match at all yields `none`. -/
theorem extractUserCompactionNote_spec :
    (∀ llmMessages, extractUserCompactionNote llmMessages = compactionNoteSpec llmMessages)
    ∧ extractUserCompactionNote [mkUserText "/compact focus on the API"]
        = some "focus on the API"
    ∧ extractUserCompactionNote [mkUserText "/compact good note", mkUserText "/compact"] = none
    ∧ extractUserCompactionNote [mkUserText "/compact good note", mkUserText "/compact   "] = none
    ∧ extractUserCompactionNote [mkUserText "hello"] = none
    ∧ extractUserCompactionNote [mkUserText "/COMPACT Note"] = some "Note" := by
  refine ⟨fun llmMessages => ?_, by decide, by decide, by decide, by decide, by decide⟩
  exact compactNoteScanWith_eq_find _

/-! ## C2 and C10: file-operation detection -/

/-- The path contributed by one message, as the spec words it: for a
tool-result message that does not signal failure, the string-valued
`"path"` argument of its indexed `write`/`edit` call, if any. -/
def specModifiedPath (byId : List (String × ToolCallInfo)) (m : LlmMessage) : Option String :=
  if m.role = some "toolResult" ∧ m.isError = false then
    extractModifiedPathFromToolResult byId m
  else none

/-- The raw candidate modified paths in encounter order, as the spec
words them (including blank ones, which the source never pushes). -/
def specModifiedRaw (byId : List (String × ToolCallInfo)) : List LlmMessage → List String
  | [] => []
  | m :: rest => (specModifiedPath byId m).toList ++ specModifiedRaw byId rest

lemma collectStep_eq (byId : List (String × ToolCallInfo)) (acc : List String) (m : LlmMessage) :
    collectStep byId acc m
      = acc ++ ((specModifiedPath byId m).toList.filter (fun p => p != "")) := by
  unfold collectStep specModifiedPath
  by_cases hc : m.role = some "toolResult" ∧ m.isError = false
  · simp only [if_pos hc]
    cases hp : extractModifiedPathFromToolResult byId m with
    | none => simp
    | some p => cases hpe : (p != "") <;> simp [hpe]
  · simp [if_neg hc]

lemma foldl_collectStep (byId : List (String × ToolCallInfo)) :
    ∀ (llmMessages : List LlmMessage) (acc : List String),
      llmMessages.foldl (collectStep byId) acc
        = acc ++ ((specModifiedRaw byId llmMessages).filter (fun p => p != "")) := by
  intro llmMessages
  induction llmMessages with
  | nil => intro acc; simp [specModifiedRaw]
  | cons m rest ih =>
    intro acc
    rw [List.foldl_cons, ih, collectStep_eq]
    simp [specModifiedRaw, List.filter_append, List.append_assoc]

lemma collectModifiedRaw_eq (byId : List (String × ToolCallInfo)) (llmMessages : List LlmMessage) :
    collectModifiedRaw byId llmMessages
      = (specModifiedRaw byId llmMessages).filter (fun p => p != "") := by
  simpa using foldl_collectStep byId llmMessages []

/-- Dropping blank entries before trimming changes nothing, because a
blank entry trims to a blank entry. -/
lemma filter_blank_map_trim (l : List String) :
    (((l.filter (fun p => p != "")).map jsTrim).filter (fun v => v != ""))
      = ((l.map jsTrim).filter (fun v => v != "")) := by
  induction l with
  | nil => rfl
  | cons x xs ih =>
    cases hx : (x != "") with
    | false =>
      have hxe : x = "" := by simpa using hx
      subst hxe
      simp [List.filter_cons, jsTrim_empty, ih]
    | true =>
      cases hcx : (jsTrim x != "") <;>
        simp [List.filter_cons, hx, hcx, ih]

lemma filter_not_contains_nil (l : List String) :
    l.filter (fun p => !(([] : List String).contains p)) = l := by
  induction l with
  | nil => rfl
  | cons x xs ih => simp [List.filter_cons, ih]

lemma all_not_contains_nil (l : List String) :
    (l.all (fun p => !(([] : List String).contains p))) = true := by
  induction l with
  | nil => rfl
  | cons x xs ih => simp [ih]

/-- C10: `detectFileOpsFromConversation` never produces a deleted path:
`deletedFiles` is always empty, the deletion-takes-precedence filter
removes nothing from `modifiedFiles`, and the modified/deleted
disjointness invariant holds vacuously. -/
theorem detectFileOps_deletedFiles_empty :
    ∀ llmMessages : List LlmMessage,
      (detectFileOpsFromConversation llmMessages).deletedFiles = []
      ∧ (detectFileOpsFromConversation llmMessages).modifiedFiles
          = uniqStrings (collectModifiedRaw (extractToolCallsFromMessages llmMessages) llmMessages)
      ∧ ((detectFileOpsFromConversation llmMessages).modifiedFiles.all
            (fun p => !((detectFileOpsFromConversation llmMessages).deletedFiles.contains p)))
          = true := by
  intro llmMessages
  refine ⟨rfl, ?_, ?_⟩
  · exact filter_not_contains_nil _
  · exact all_not_contains_nil _

/-- The modified-files formula exactly as the claim words it:
first-occurrence-order deduplication of the raw string-valued path
arguments of qualifying calls, minus the deleted paths — without the
trim-and-drop-blanks normalization `uniqStrings` applies. -/
def claimModifiedFiles (llmMessages : List LlmMessage) : List String :=
  (dedupFirst (specModifiedRaw (extractToolCallsFromMessages llmMessages) llmMessages)).filter
    (fun p => !((detectFileOpsFromConversation llmMessages).deletedFiles.contains p))

/-- C2 counterexample: the source trims each candidate path before
deduplicating (`uniqStrings` maps `trim` and drops blanks), so for a
successful `write` whose path argument is `" /src/a.ts "` the code
reports `"/src/a.ts"` while the claim's formula — deduplication of the
raw path arguments — reports `" /src/a.ts "`. -/
theorem detectFileOps_trim_cex :
    (detectFileOpsFromConversation
        [writeCallMsg "call-1" " /src/a.ts ", toolResultMsg "call-1" false]).modifiedFiles
      = ["/src/a.ts"]
    ∧ claimModifiedFiles [writeCallMsg "call-1" " /src/a.ts ", toolResultMsg "call-1" false]
      = [" /src/a.ts "]
    ∧ decide
        ((detectFileOpsFromConversation
            [writeCallMsg "call-1" " /src/a.ts ", toolResultMsg "call-1" false]).modifiedFiles
          = claimModifiedFiles
              [writeCallMsg "call-1" " /src/a.ts ", toolResultMsg "call-1" false])
      = false := by
  decide

/-- C2 (amended): `modifiedFiles` is the first-occurrence-order
deduplication of the trimmed string-valued `"path"` arguments of indexed
`write`/`edit` calls whose tool-result message does not signal failure,
blank paths dropped, with any path also present in `deletedFiles`
removed; failed or unlinked results contribute nothing, a later failed
call does not remove an already modified path, and the one-successful-
write scenario yields `modifiedFiles = ["/src/a.ts"]`,
`deletedFiles = []`. -/
theorem detectFileOps_modifiedFiles_spec :
    (∀ llmMessages : List LlmMessage,
      (detectFileOpsFromConversation llmMessages).modifiedFiles
        = (dedupFirst
            (((specModifiedRaw (extractToolCallsFromMessages llmMessages) llmMessages).map
                jsTrim).filter (fun v => v != ""))).filter
            (fun p => !((detectFileOpsFromConversation llmMessages).deletedFiles.contains p)))
    ∧ detectFileOpsFromConversation
        [mkUserText "please write it", writeCallMsg "call-1" "/src/a.ts",
         toolResultMsg "call-1" false]
        = ⟨["/src/a.ts"], []⟩
    ∧ detectFileOpsFromConversation
        [writeCallMsg "call-1" "/src/a.ts", toolResultMsg "call-1" false,
         writeCallMsg "call-2" "/src/a.ts", toolResultMsg "call-2" true]
        = ⟨["/src/a.ts"], []⟩ := by
  refine ⟨fun llmMessages => ?_, by decide, by decide⟩
  simp only [detectFileOpsFromConversation]
  rw [collectModifiedRaw_eq]
  unfold uniqStrings
  rw [filter_blank_map_trim]

/-! ## C1: the bounded-concurrency runner refines the sequential map

The invariant: the cursor never passes the end, every mapper invocation
corresponds to exactly one claimed index, every claimed index either has
its final result written or is held by some live worker, and a finished
worker certifies that the cursor has reached the end. -/

def RunnerInv {T U : Type} (items : List T) (f : T → Nat → U) (c : ℚ)
    (s : RunnerState U) : Prop :=
  s.nextIndex ≤ items.length
  ∧ s.invocations = s.nextIndex
  ∧ (∀ i, i < s.nextIndex →
      s.results i = (items[i]?).map (fun a => f a i)
      ∨ ∃ w, w < workerCount items c ∧ s.workers w = .running i)
  ∧ ((∃ w, w < workerCount items c ∧ s.workers w = .finished) → items.length ≤ s.nextIndex)

lemma runnerInv_init {T U : Type} (items : List T) (f : T → Nat → U) (c : ℚ) :
    RunnerInv items f c (runnerInit items (U := U)) := by
  refine ⟨Nat.zero_le _, rfl, ?_, ?_⟩
  · intro i hi
    exact absurd hi (Nat.not_lt_zero i)
  · rintro ⟨w, _, hfin⟩
    simp [runnerInit] at hfin

lemma runnerInv_step {T U : Type} (items : List T) (f : T → Nat → U) (c : ℚ)
    (s : RunnerState U) (w : Nat) (h : RunnerInv items f c s) :
    RunnerInv items f c (runnerStep items f c s w) := by
  obtain ⟨h1, h2, h3, h4⟩ := h
  unfold runnerStep
  by_cases hw : w < workerCount items c
  case neg =>
    simpa [hw] using ⟨h1, h2, h3, h4⟩
  case pos =>
    simp only [if_pos hw]
    cases hph : s.workers w with
    | idle =>
      cases hitem : items[s.nextIndex]? with
      | some a =>
        have hlt : s.nextIndex < items.length := by
          by_contra hge
          rw [List.getElem?_eq_none (by omega)] at hitem
          cases hitem
        refine ⟨hlt, by simp [h2], ?_, ?_⟩
        · intro i hi
          rcases Nat.lt_succ_iff_lt_or_eq.mp hi with hlt2 | heq
          · rcases h3 i hlt2 with hres | ⟨w', hw', hrun⟩
            · exact Or.inl hres
            · right
              refine ⟨w', hw', ?_⟩
              have hne : w' ≠ w := by
                intro he
                rw [he, hph] at hrun
                cases hrun
              simpa [hne] using hrun
          · subst heq
            right
            exact ⟨w, hw, by simp⟩
        · rintro ⟨w', hw', hfin⟩
          by_cases he : w' = w
          · subst he
            simp at hfin
          · have hold : s.workers w' = .finished := by simpa [he] using hfin
            exact Nat.le_succ_of_le (h4 ⟨w', hw', hold⟩)
      | none =>
        have hge : items.length ≤ s.nextIndex := by
          by_contra hlt
          rw [List.getElem?_eq_getElem (by omega)] at hitem
          cases hitem
        refine ⟨h1, h2, ?_, fun _ => hge⟩
        intro i hi
        rcases h3 i hi with hres | ⟨w', hw', hrun⟩
        · exact Or.inl hres
        · right
          refine ⟨w', hw', ?_⟩
          have hne : w' ≠ w := by
            intro he
            rw [he, hph] at hrun
            cases hrun
          simpa [hne] using hrun
    | running i =>
      refine ⟨h1, h2, ?_, ?_⟩
      · intro j hj
        by_cases hji : j = i
        · subst hji
          left
          simp
        · rcases h3 j hj with hres | ⟨w', hw', hrun⟩
          · left
            simpa [hji] using hres
          · right
            refine ⟨w', hw', ?_⟩
            have hne : w' ≠ w := by
              intro he
              rw [he, hph] at hrun
              exact hji (WorkerPhase.running.inj hrun).symm
            simpa [hne] using hrun
      · rintro ⟨w', hw', hfin⟩
        by_cases he : w' = w
        · subst he
          simp at hfin
        · exact h4 ⟨w', hw', by simpa [he] using hfin⟩
    | finished =>
      exact ⟨h1, h2, h3, h4⟩

lemma runnerInv_run {T U : Type} (items : List T) (f : T → Nat → U) (c : ℚ)
    (sched : List Nat) : RunnerInv items f c (runnerRun items f c sched) := by
  unfold runnerRun
  have haux : ∀ (l : List Nat) (s : RunnerState U),
      RunnerInv items f c s → RunnerInv items f c (l.foldl (runnerStep items f c) s) := by
    intro l
    induction l with
    | nil => exact fun s hs => hs
    | cons w rest ih => exact fun s hs => ih _ (runnerInv_step items f c s w hs)
  exact haux sched _ (runnerInv_init items f c)

lemma runner_done_spec {T U : Type} (items : List T) (f : T → Nat → U) (c : ℚ)
    (sched : List Nat)
    (hdone : runnerDone items c (runnerRun items f c sched) = true) :
    (runnerRun items f c sched).nextIndex = items.length
    ∧ (runnerRun items f c sched).invocations = items.length
    ∧ (∀ i, i < items.length →
        (runnerRun items f c sched).results i = (items[i]?).map (fun a => f a i)) := by
  obtain ⟨h1, h2, h3, h4⟩ := runnerInv_run items f c sched
  unfold runnerDone at hdone
  have hfin : ∀ w, w < workerCount items c →
      (runnerRun items f c sched).workers w = .finished := by
    intro w hwlt
    have hmem := List.all_eq_true.mp hdone w (List.mem_range.mpr hwlt)
    exact of_decide_eq_true hmem
  have hnext : (runnerRun items f c sched).nextIndex = items.length := by
    cases Nat.eq_zero_or_pos items.length with
    | inl hz => omega
    | inr hpos =>
      have hwc : 0 < workerCount items c := by
        unfold workerCount effectiveConcurrency
        refine lt_min_iff.mpr ⟨?_, hpos⟩
        have hmax : (1 : Int) ≤ max 1 (jsFloor c) := le_max_left _ _
        have := Int.toNat_le_toNat hmax
        omega
      have := h4 ⟨0, hwc, hfin 0 hwc⟩
      omega
  refine ⟨hnext, by omega, ?_⟩
  intro i hi
  rcases h3 i (by omega) with hres | ⟨w', hw', hrun⟩
  · exact hres
  · rw [hfin w' hw'] at hrun
    cases hrun

lemma filterMap_range'_seqMap {T U : Type} (f : T → Nat → U) :
    ∀ (l : List T) (k : Nat) (res : Nat → Option U),
      (∀ i, i < l.length → res (k + i) = (l[i]?).map (fun a => f a (k + i))) →
      (List.range' k l.length).filterMap res = seqMap f k l := by
  intro l
  induction l with
  | nil => intro k res _; rfl
  | cons a as ih =>
    intro k res h
    have hk : res k = some (f a k) := by simpa using h 0 (Nat.succ_pos _)
    show (k :: List.range' (k + 1) as.length).filterMap res = f a k :: seqMap f (k + 1) as
    rw [List.filterMap_cons, hk]
    refine congrArg (f a k :: ·) (ih (k + 1) res ?_)
    intro i hi
    have hstep := h (i + 1) (Nat.succ_lt_succ hi)
    have harith : k + (i + 1) = (k + 1) + i := by omega
    rw [harith] at hstep
    simpa using hstep

/-- Every settled run of the worker pool — under any scheduler
interleaving — produces exactly the sequential map, with one mapper
invocation per item. -/
lemma mapWithConcurrency_complete {T U : Type} (items : List T) (f : T → Nat → U) (c : ℚ)
    (sched : List Nat) (r : List U) (h : mapWithConcurrency items f c sched = some r) :
    r = seqMap f 0 items
    ∧ (runnerRun items f c sched).invocations = items.length := by
  simp only [mapWithConcurrency] at h
  by_cases hemp : items.isEmpty
  case pos =>
    have hnil : items = [] := List.isEmpty_iff.mp hemp
    subst hnil
    rw [if_pos (show ([] : List T).isEmpty = true from rfl)] at h
    refine ⟨by simpa [seqMap] using (Option.some.inj h).symm, ?_⟩
    obtain ⟨h1, h2, _, _⟩ := runnerInv_run ([] : List T) f c sched
    simp only [List.length_nil] at h1 ⊢
    omega
  case neg =>
    rw [if_neg hemp] at h
    by_cases hdone : runnerDone items c (runnerRun items f c sched) = true
    · obtain ⟨hnext, hinvoc, hres⟩ := runner_done_spec items f c sched hdone
      refine ⟨?_, hinvoc⟩
      have hext : (List.range items.length).filterMap (runnerRun items f c sched).results
          = seqMap f 0 items := by
        rw [List.range_eq_range']
        exact filterMap_range'_seqMap f items 0 _ (fun i hi => by simpa using hres i hi)
      rw [if_pos hdone] at h
      rw [← hext]
      exact (Option.some.inj h).symm
    · rw [if_neg hdone] at h
      cases h

/-- C1: whenever `mapWithConcurrency` settles — for every item list,
every concurrency bound (non-positive and fractional bounds are coerced
by floor with minimum 1 inside the runner), every mapper, and every
scheduler interleaving of the workers — its result equals the strictly
sequential map, with `result[i]` corresponding to `item[i]` at every
index, and each item's mapper invoked exactly once; the empty input
settles immediately to the empty list with zero mapper invocations. -/
theorem mapWithConcurrency_refines_sequential :
    (∀ {T U : Type} (items : List T) (f : T → Nat → U) (c : ℚ) (sched : List Nat) (r : List U),
      mapWithConcurrency items f c sched = some r →
      r = seqMap f 0 items
      ∧ (runnerRun items f c sched).invocations = items.length)
    ∧ (∀ {T U : Type} (f : T → Nat → U) (c : ℚ) (sched : List Nat),
      mapWithConcurrency ([] : List T) f c sched = some []
      ∧ (runnerRun ([] : List T) f c sched).invocations = 0) := by
  constructor
  · intro T U items f c sched r h
    exact mapWithConcurrency_complete items f c sched r h
  · intro T U f c sched
    refine ⟨rfl, ?_⟩
    obtain ⟨h1, h2, _, _⟩ := runnerInv_run ([] : List T) f c sched
    simp only [List.length_nil] at h1 ⊢
    omega

/-- C1 witness: three items mapped with the fractional bound `5/2`
(coerced to two workers) under a schedule in which worker 1 finishes its
item before worker 0; the settled result is still the sequential map and
the mapper ran exactly three times. -/
theorem mapWithConcurrency_refines_sequential_witness :
    mapWithConcurrency [10, 20, 30] (fun a i => a + i) (mkRat 5 2) [0, 1, 0, 0, 1, 0, 0, 1]
      = some [10, 21, 32]
    ∧ ([10, 21, 32] = seqMap (fun a i => a + i) 0 [10, 20, 30]
        ∧ (runnerRun [10, 20, 30] (fun a i => a + i) (mkRat 5 2)
            [0, 1, 0, 0, 1, 0, 0, 1]).invocations = [10, 20, 30].length) :=
  ⟨by decide,
   mapWithConcurrency_refines_sequential.1 [10, 20, 30] (fun a i => a + i) (mkRat 5 2)
     [0, 1, 0, 0, 1, 0, 0, 1] [10, 21, 32] (by decide)⟩

/-! ## C3, C4, C5: the agent loop -/

lemma seqMap_const_index {T U : Type} (g : T → U) :
    ∀ (k : Nat) (l : List T), seqMap (fun a _ => g a) k l = l.map g := by
  intro k l
  induction l generalizing k with
  | nil => rfl
  | cons a as ih => simp [seqMap, ih]

/-- A settled tool batch — under any scheduler interleaving — yields one
result per call, each the execution of that call's command. -/
lemma executeToolCallsModel_complete (bashExec : String → BashOutcome)
    (toolResultMaxChars : Nat) (toolCallConcurrency : ℚ)
    (toolCalls : List ToolCallContent) (sched : List Nat)
    (results : List ToolCallExecResult)
    (h : executeToolCallsModel bashExec toolResultMaxChars toolCallConcurrency
        toolCalls sched = some results) :
    results = toolCalls.map
      (fun tc => executeSingleToolCall (bashExec tc.command) toolResultMaxChars) := by
  have hseq := (mapWithConcurrency_complete toolCalls
    (fun tc _ => executeSingleToolCall (bashExec tc.command) toolResultMaxChars)
    toolCallConcurrency sched results h).1
  rw [hseq, seqMap_const_index]

lemma toolResultTurns_map (tcs : List ToolCallContent)
    (g : ToolCallContent → ToolCallExecResult) :
    toolResultTurns tcs (tcs.map g)
      = tcs.map (fun tc => TMsg.toolResult tc.id tc.name (g tc).result (g tc).isError) := by
  induction tcs with
  | nil => rfl
  | cons tc rest ih =>
    unfold toolResultTurns at ih ⊢
    simp [List.zip_cons_cons, ih]

/-- C4: after every `executing` phase that settles — under every
scheduler interleaving, hence regardless of completion order — the
tool-result turns appended to both transcripts are in the original call
order, one per call, each carrying that call's output and error flag,
and the loop returns to `requesting`. -/
theorem loop_appends_toolResults_in_call_order :
    ∀ (bashExec : String → BashOutcome) (toolResultMaxChars : Nat) (toolCallConcurrency : ℚ)
      (ms tr : List TMsg) (rq : Nat) (responseContent : List ContentBlock)
      (abortedNow : Bool) (sched : List Nat) (results : List ToolCallExecResult),
      executeToolCallsModel bashExec toolResultMaxChars toolCallConcurrency
          (toolCallsOf responseContent) sched = some results →
      loopStep bashExec toolResultMaxChars toolCallConcurrency
          ⟨.executing responseContent, ms, tr, rq⟩ (.exec abortedNow sched)
        = ⟨.requesting,
           ms ++ (toolCallsOf responseContent).map (fun tc =>
             .toolResult tc.id tc.name
               (executeSingleToolCall (bashExec tc.command) toolResultMaxChars).result
               (executeSingleToolCall (bashExec tc.command) toolResultMaxChars).isError),
           tr ++ (toolCallsOf responseContent).map (fun tc =>
             .toolResult tc.id tc.name
               (executeSingleToolCall (bashExec tc.command) toolResultMaxChars).result
               (executeSingleToolCall (bashExec tc.command) toolResultMaxChars).isError),
           rq⟩ := by
  intro bashExec toolResultMaxChars toolCallConcurrency ms tr rq responseContent
    abortedNow sched results h
  have hres := executeToolCallsModel_complete bashExec toolResultMaxChars
    toolCallConcurrency (toolCallsOf responseContent) sched results h
  subst hres
  simp only [loopStep]
  rw [h]
  simp only [toolResultTurns_map]

/-- C4 witness: two calls with tool concurrency 2, under a schedule in
which the second call settles before the first; the tool-result turns
are still appended in call order `[first, second]`. -/
theorem loop_appends_toolResults_in_call_order_witness :
    loopStep (fun cmd => .ok cmd "" 0) 100 (mkRat 2 1)
        ⟨.executing [.toolCall "a" "bash" "slow", .toolCall "b" "bash" "fast"], [], [], 1⟩
        (.exec false [0, 1, 1, 0, 0, 1])
      = ⟨.requesting,
         [.toolResult "a" "bash" "slow" false, .toolResult "b" "bash" "fast" false],
         [.toolResult "a" "bash" "slow" false, .toolResult "b" "bash" "fast" false],
         1⟩ := by
  have happ := loop_appends_toolResults_in_call_order (fun cmd => .ok cmd "" 0) 100
    (mkRat 2 1) [] [] 1 [.toolCall "a" "bash" "slow", .toolCall "b" "bash" "fast"]
    false [0, 1, 1, 0, 0, 1] [⟨"slow", false⟩, ⟨"fast", false⟩] (by decide)
  exact happ.trans (by decide)

/-- C3: from `requesting` with the signal clear, one step terminates in
`Phase.done` exactly when the response contains zero tool-call blocks —
in which case the summary is the joined text blocks and the final
assistant turn goes to the trajectory — while one or more tool-call
blocks force a transition to `executing` (appending the assistant turn
to both transcripts), and any settled batch returns the loop to
`requesting`. -/
theorem loop_done_iff_no_toolCalls :
    ∀ (bashExec : String → BashOutcome) (toolResultMaxChars : Nat) (toolCallConcurrency : ℚ)
      (ms tr : List TMsg) (rq : Nat) (responseContent : List ContentBlock),
      ((loopStep bashExec toolResultMaxChars toolCallConcurrency
          ⟨.requesting, ms, tr, rq⟩ (.req false responseContent)).phase
        = if (toolCallsOf responseContent).isEmpty
          then Phase.done (summaryOf responseContent)
          else Phase.executing responseContent)
      ∧ ((toolCallsOf responseContent).isEmpty = true →
          loopStep bashExec toolResultMaxChars toolCallConcurrency
              ⟨.requesting, ms, tr, rq⟩ (.req false responseContent)
            = ⟨.done (summaryOf responseContent), ms,
               tr ++ [.assistant responseContent], rq + 1⟩)
      ∧ ((toolCallsOf responseContent).isEmpty = false →
          loopStep bashExec toolResultMaxChars toolCallConcurrency
              ⟨.requesting, ms, tr, rq⟩ (.req false responseContent)
            = ⟨.executing responseContent, ms ++ [.assistant responseContent],
               tr ++ [.assistant responseContent], rq + 1⟩
          ∧ ∀ (abortedNow : Bool) (sched : List Nat) (results : List ToolCallExecResult),
              executeToolCallsModel bashExec toolResultMaxChars toolCallConcurrency
                  (toolCallsOf responseContent) sched = some results →
              (loopStep bashExec toolResultMaxChars toolCallConcurrency
                  ⟨.executing responseContent, ms ++ [.assistant responseContent],
                   tr ++ [.assistant responseContent], rq + 1⟩
                  (.exec abortedNow sched)).phase = .requesting) := by
  intro bashExec toolResultMaxChars toolCallConcurrency ms tr rq responseContent
  refine ⟨?_, ?_, ?_⟩
  · cases hemp : (toolCallsOf responseContent).isEmpty <;>
      simp [loopStep, hemp]
  · intro hemp
    simp [loopStep, hemp]
  · intro hemp
    constructor
    · simp [loopStep, hemp]
    · intro abortedNow sched results h
      simp only [loopStep]
      rw [h]

/-- C3 witness: a response with a single text block and no tool calls
terminates the loop in one step with that text as the summary, the turn
appended to the trajectory. -/
theorem loop_done_iff_no_toolCalls_witness :
    loopStep (fun cmd => .ok cmd "" 0) 100 (mkRat 2 1) loopInit
        (.req false [.text "All done summary."])
      = ⟨.done "All done summary.", [], [.assistant [.text "All done summary."]], 1⟩ := by
  have hdone := (loop_done_iff_no_toolCalls (fun cmd => .ok cmd "" 0) 100 (mkRat 2 1)
    [] [] 0 [.text "All done summary."]).2.1 (by decide)
  exact hdone.trans (by decide)

/-- C5: the cancellation signal is consulted only at the head of
`requesting`: a set signal there moves the loop to `aborted` with both
transcripts and the request count unchanged (no completion request
issued, no summary produced) independently of whatever response would
have followed, while a clear signal issues exactly one completion
request; in `executing` the step is entirely independent of the signal
value, so a signal raised after dispatch never preempts the in-flight
batch. -/
theorem loop_cancellation_only_at_requesting :
    ∀ (bashExec : String → BashOutcome) (toolResultMaxChars : Nat) (toolCallConcurrency : ℚ)
      (ms tr : List TMsg) (rq : Nat)
      (responseContent responseContent' : List ContentBlock) (sched : List Nat)
      (st : LoopState),
      loopStep bashExec toolResultMaxChars toolCallConcurrency
          ⟨.requesting, ms, tr, rq⟩ (.req true responseContent)
        = ⟨.aborted, ms, tr, rq⟩
      ∧ loopStep bashExec toolResultMaxChars toolCallConcurrency
          ⟨.requesting, ms, tr, rq⟩ (.req true responseContent)
        = loopStep bashExec toolResultMaxChars toolCallConcurrency
          ⟨.requesting, ms, tr, rq⟩ (.req true responseContent')
      ∧ (∀ summary, (loopStep bashExec toolResultMaxChars toolCallConcurrency
          ⟨.requesting, ms, tr, rq⟩ (.req true responseContent)).phase ≠ Phase.done summary)
      ∧ (loopStep bashExec toolResultMaxChars toolCallConcurrency
          ⟨.requesting, ms, tr, rq⟩ (.req false responseContent)).requests = rq + 1
      ∧ loopStep bashExec toolResultMaxChars toolCallConcurrency st (.exec true sched)
        = loopStep bashExec toolResultMaxChars toolCallConcurrency st (.exec false sched) := by
  intro bashExec toolResultMaxChars toolCallConcurrency ms tr rq
    responseContent responseContent' sched st
  refine ⟨rfl, rfl, ?_, ?_, ?_⟩
  · intro summary
    simp [loopStep]
  · cases hemp : (toolCallsOf responseContent).isEmpty <;>
      simp [loopStep, hemp]
  · obtain ⟨ph, ms', tr', rq'⟩ := st
    cases ph <;> rfl

/-- C5 witness: with the signal set at the head of `requesting`, one
step from the initial state aborts, leaving the transcript and request
count untouched, and the resulting phase is not `done`. -/
theorem loop_cancellation_only_at_requesting_witness :
    loopStep (fun cmd => .ok cmd "" 0) 100 (mkRat 2 1) loopInit
        (.req true [.text "ignored"])
      = ⟨.aborted, [], [], 0⟩
    ∧ (loopStep (fun cmd => .ok cmd "" 0) 100 (mkRat 2 1) loopInit
        (.req true [.text "ignored"])).phase ≠ Phase.done "ignored" :=
  ⟨(loop_cancellation_only_at_requesting (fun cmd => .ok cmd "" 0) 100 (mkRat 2 1)
      [] [] 0 [.text "ignored"] [] [] loopInit).1,
   (loop_cancellation_only_at_requesting (fun cmd => .ok cmd "" 0) 100 (mkRat 2 1)
      [] [] 0 [.text "ignored"] [] [] loopInit).2.2.1 "ignored"⟩

end Compaction
